import Mathlib

/-!
Shallow embedding of the ssm-editor CLI (src/ssm-editor/cli.py).

The program fetches all AWS SSM parameters under a path prefix, serializes
them as key=value lines into a temporary file, lets a human edit that file,
re-parses it, diffs the result against the original snapshot and writes
changed entries back one by one.

Modelling choices:
- Python strings are lists of characters (PyStr); Python dicts are
  association lists in insertion order with unique keys (Dict), with
  dictGet and dictInsert mirroring d.get(k) and d[k] = v.
- The SSM service is a pure oracle: fetch receives the list of pages the
  service would yield before running out of pagination tokens; put_parameter
  receives a predicate naming the calls that raise.
- The external editor is opaque: a Boolean saying whether the subprocess
  invocation succeeds, and a function from file content to file content
  standing for the human edit.
- Exceptions that the Python code does not catch are explicit error values.
-/

/-- Python strings, modelled as lists of characters. -/
abbrev PyStr := List Char

/-- Whitespace characters recognised by Python str.strip with no
arguments: exactly the characters for which str.isspace() is true — the
ASCII whitespace and separator controls (tab, newline, vertical tab, form
feed, carriage return, space, and the file/group/record/unit separators
1c-1f), next line 85, no-break space a0, ogham space mark 1680, the
Unicode space separators 2000-200a, line separator 2028, paragraph
separator 2029, narrow no-break space 202f, medium mathematical space
205f, and ideographic space 3000. -/
def pyIsSpace (c : Char) : Bool :=
  c == ' ' || c == '\t' || c == '\n' || c == '\u000b' || c == '\u000c' || c == '\r'
    || c == '\u001c' || c == '\u001d' || c == '\u001e' || c == '\u001f'
    || c == '\u0085' || c == '\u00a0' || c == '\u1680'
    || c == '\u2000' || c == '\u2001' || c == '\u2002' || c == '\u2003'
    || c == '\u2004' || c == '\u2005' || c == '\u2006' || c == '\u2007'
    || c == '\u2008' || c == '\u2009' || c == '\u200a'
    || c == '\u2028' || c == '\u2029' || c == '\u202f' || c == '\u205f'
    || c == '\u3000'

/-- Python str.strip with no arguments: drop whitespace from both ends. -/
def pyStrip (s : PyStr) : PyStr :=
  ((s.dropWhile pyIsSpace).reverse.dropWhile pyIsSpace).reverse

/-- Python dict with string keys and string values: an association list in
insertion order whose keys are unique. -/
abbrev Dict := List (PyStr × PyStr)

/-- Python d.get(k): the value stored under k, none when k is absent. -/
def dictGet (d : Dict) (k : PyStr) : Option PyStr :=
  match d with
  | [] => none
  | (k1, v1) :: rest => if k1 = k then some v1 else dictGet rest k

/-- Python d[k] = v: overwrite the value in place when k is present
(keeping the key's position), otherwise append at the end. -/
def dictInsert (d : Dict) (k v : PyStr) : Dict :=
  match d with
  | [] => [(k, v)]
  | (k1, v1) :: rest =>
    if k1 = k then (k1, v) :: rest else (k1, v1) :: dictInsert rest k v

/-- One serialized line of the temp file (cli.py line 34): key, equals
sign, value, newline, with no escaping. -/
def serializeEntry (k v : PyStr) : PyStr := k ++ '=' :: v ++ ['\n']

/-- Serialization step of edit_parameters_in_editor (cli.py lines 33-34):
one key=value line per snapshot entry, in insertion order. -/
def serialize (d : Dict) : PyStr :=
  match d with
  | [] => []
  | (k, v) :: rest => serializeEntry k v ++ serialize rest

/-- Split a document into lines at newline characters, as iterating a file
line by line does; the terminating newline of each line is dropped here,
which the subsequent strip would remove anyway. -/
def splitLines (s : PyStr) : List PyStr :=
  match s with
  | [] => [[]]
  | c :: rest =>
    if c = '\n' then [] :: splitLines rest
    else
      match splitLines rest with
      | [] => [[c]]
      | l :: ls => (c :: l) :: ls

/-- Python line.split on the first equals sign (maxsplit 1), partially:
some (before, after) when the line contains an equals sign, none otherwise.
The none case also covers the empty line, so it is exactly the skip
condition of cli.py line 47. -/
def splitFirstEq (s : PyStr) : Option (PyStr × PyStr) :=
  match s with
  | [] => none
  | c :: rest =>
    if c = '=' then some ([], rest)
    else (splitFirstEq rest).map fun p => (c :: p.1, p.2)

/-- One iteration of the reparse loop (cli.py lines 45-50): strip the
line; skip it when it is empty or has no equals sign; otherwise split on
the first equals sign, strip key and value, and insert. -/
def parseLine (d : Dict) (line : PyStr) : Dict :=
  match splitFirstEq (pyStrip line) with
  | none => d
  | some (k, v) => dictInsert d (pyStrip k) (pyStrip v)

/-- Reparse step of edit_parameters_in_editor (cli.py lines 43-50): fold
parseLine over the lines of the edited document, starting from the empty
mapping. -/
def parseDocument (s : PyStr) : Dict :=
  (splitLines s).foldl parseLine []

/-- Worker for pyReadText. The flag records that the previous character
was a carriage return whose translated line feed has already been
emitted, so that a directly following line feed is swallowed. -/
def pyReadTextAux : Bool → PyStr → PyStr
  | _, [] => []
  | afterCr, c :: rest =>
    if c = '\r' then '\n' :: pyReadTextAux true rest
    else if afterCr && c = '\n' then pyReadTextAux false rest
    else c :: pyReadTextAux false rest

/-- Universal-newline translation performed by reading the temp file in
text mode (open(tmp_file, 'r') at cli.py line 44): a carriage return
followed by a line feed, or a lone carriage return, is read as a single
line feed; everything else is unchanged. -/
def pyReadText (s : PyStr) : PyStr := pyReadTextAux false s

/-- Failure of the editor subprocess invocation (FileNotFoundError from
subprocess.Popen or subprocess.call), which cli.py does not catch. -/
inductive EditError where
  | editorLaunchFailed
  deriving DecidableEq

deriving instance DecidableEq for Except

/-- Outcome of the edit session: the returned mapping or the uncaught
launch error, together with whether the temporary file still exists when
the session is over. -/
structure EditOutcome where
  result : Except EditError Dict
  tmpFileExists : Bool
  deriving DecidableEq

/-- Embeds edit_parameters_in_editor (cli.py lines 29-53). The temporary
file is created holding the serialized snapshot; launchOk says whether the
editor subprocess invocation succeeds (both branches of the editor
dispatch raise before the reparse when it does not, and the code has no
try/finally around os.unlink); transform is the human edit applied to the
file content while the editor is open. On the normal path the file is
read back through the universal-newline translation, reparsed, and then
unlinked; on the launch-failure path the exception propagates before the
unlink. -/
def edit_parameters_in_editor (params : Dict) (launchOk : Bool)
    (transform : PyStr → PyStr) : EditOutcome :=
  if launchOk then
    ⟨Except.ok (parseDocument (pyReadText (transform (serialize params)))), false⟩
  else
    ⟨Except.error EditError.editorLaunchFailed, true⟩

/-- First-occurrence split: some (before, after) around the first
occurrence of sep in s, scanning left to right; none when sep does not
occur in s. This is one step of Python str.split. -/
def splitFirst (sep : PyStr) (s : PyStr) : Option (PyStr × PyStr) :=
  match s with
  | [] => none
  | c :: rest =>
    if sep.isPrefixOf (c :: rest) then some ([], (c :: rest).drop sep.length)
    else (splitFirst sep rest).map fun p => (c :: p.1, p.2)

/-- Fuel-driven worker for pySplit. The fuel only bounds the number of
pieces; s.length + 1 is always enough for a nonempty separator, since
every occurrence consumes at least one character of s. -/
def pySplitFuel (sep : PyStr) : Nat → PyStr → List PyStr
  | 0, s => [s]
  | fuel + 1, s =>
    match splitFirst sep s with
    | none => [s]
    | some (before, after) => before :: pySplitFuel sep fuel after

/-- Python s.split(sep) for a nonempty separator sep: the pieces of s
between successive occurrences of sep. -/
def pySplit (sep s : PyStr) : List PyStr := pySplitFuel sep (s.length + 1) s

/-- Relative-key computation of the fetcher (cli.py line 20):
name.split(path) indexed at 1; none models the uncaught IndexError raised
when the split yields fewer than two pieces. -/
def relKey (path name : PyStr) : Option PyStr := (pySplit path name)[1]?

/-- One page of get_parameters_by_path results: (Name, Value) entries. -/
abbrev Page := List (PyStr × PyStr)

/-- Inner for-loop of fetch_parameters_by_path (cli.py lines 19-20):
store each entry of the page under its relative key; the error is the
uncaught IndexError of relKey aborting the whole fetch. -/
def processEntries (path : PyStr) : List (PyStr × PyStr) → Dict → Except Unit Dict
  | [], acc => Except.ok acc
  | (n, v) :: rest, acc =>
    match relKey path n with
    | none => Except.error ()
    | some k => processEntries path rest (dictInsert acc k v)

/-- While loop of fetch_parameters_by_path (cli.py lines 13-24): consume
the pages the service yields (the list ends when the service returns no
NextToken), accumulating all entries into one mapping. -/
def fetchLoop (path : PyStr) : List Page → Dict → Except Unit Dict
  | [], acc => Except.ok acc
  | page :: rest, acc =>
    match processEntries path page acc with
    | Except.error e => Except.error e
    | Except.ok d => fetchLoop path rest d

/-- Embeds fetch_parameters_by_path (cli.py lines 7-26), started from the
empty mapping. -/
def fetch_parameters_by_path (path : PyStr) (pages : List Page) : Except Unit Dict :=
  fetchLoop path pages []

/-- One row of the changes table (cli.py line 77): key, old value, new
value. The old value is params at k subscripted directly, not a get. -/
abbrev Change := PyStr × PyStr × PyStr

/-- Result of the diff-and-commit loop in main: the changes table, the
attempted put_parameter calls as ((Name, Value), succeeded), and the key
at which an uncaught KeyError aborted the loop, if any. -/
structure CommitResult where
  changes : List Change
  writes : List ((PyStr × PyStr) × Bool)
  crashed : Option PyStr
  deriving DecidableEq

/-- Embeds the for-loop of main (cli.py lines 75-86): iterate the edited
mapping in insertion order; skip a key when its edited value equals
params.get(key); otherwise append the row with old value params at k — an
uncaught KeyError, modelled as crashed, when k is absent from params —
and attempt put_parameter with Name = path + k and Value = v, whose
failure (fails names the put calls that raise) is caught by the
try/except and recorded, never propagated. -/
def commit_changes (path : PyStr) (params : Dict) (fails : PyStr → Bool) :
    List (PyStr × PyStr) → CommitResult
  | [] => ⟨[], [], none⟩
  | (k, v) :: rest =>
    if dictGet params k = some v then commit_changes path params fails rest
    else
      match dictGet params k with
      | none => ⟨[], [], some k⟩
      | some old =>
        let r := commit_changes path params fails rest
        ⟨(k, old, v) :: r.changes,
         ((path ++ k, v), !fails (path ++ k)) :: r.writes,
         r.crashed⟩

/-- Keys that survive the round trip unchanged: no newline or carriage
return, no equals sign, and no whitespace at either end. -/
abbrev cleanKey (k : PyStr) : Prop :=
  k.dropWhile pyIsSpace = k ∧ k.reverse.dropWhile pyIsSpace = k.reverse
    ∧ '\n' ∉ k ∧ '=' ∉ k ∧ '\r' ∉ k

/-- Values that survive the round trip unchanged: no newline or carriage
return and no whitespace at either end. -/
abbrev cleanVal (v : PyStr) : Prop :=
  v.dropWhile pyIsSpace = v ∧ v.reverse.dropWhile pyIsSpace = v.reverse
    ∧ '\n' ∉ v ∧ '\r' ∉ v

/-- dictInsert with a fresh key appends the new entry at the end. -/
theorem dictInsert_of_not_mem (d : Dict) (k v : PyStr) (h : k ∉ d.map Prod.fst) :
    dictInsert d k v = d ++ [(k, v)] := by
  induction d with
  | nil => rfl
  | cons hd tl ih =>
    obtain ⟨k1, v1⟩ := hd
    simp only [List.map_cons, List.mem_cons] at h
    push_neg at h
    simp [dictInsert, Ne.symm h.1, ih h.2]

/-- In a mapping with unique keys, dictGet finds the value of any entry. -/
theorem dictGet_of_mem_nodup (d : Dict) (k v : PyStr)
    (hnd : (d.map Prod.fst).Nodup) (hm : (k, v) ∈ d) :
    dictGet d k = some v := by
  induction d with
  | nil => simp at hm
  | cons hd tl ih =>
    obtain ⟨k1, v1⟩ := hd
    simp only [List.map_cons, List.nodup_cons] at hnd
    rcases List.mem_cons.mp hm with h | h
    · have hk : k = k1 := congrArg Prod.fst h
      have hv : v = v1 := congrArg Prod.snd h
      subst hk
      subst hv
      simp [dictGet]
    · have hne : k1 ≠ k := by
        intro heq
        subst heq
        exact hnd.1 (List.mem_map.mpr ⟨(k1, v), h, rfl⟩)
      simp [dictGet, hne, ih hnd.2 h]

/-- dictGet only returns values of entries actually present. -/
theorem dictGet_mem (d : Dict) (k v : PyStr) (h : dictGet d k = some v) :
    (k, v) ∈ d := by
  induction d with
  | nil => simp [dictGet] at h
  | cons hd tl ih =>
    obtain ⟨k1, v1⟩ := hd
    by_cases hk : k1 = k
    · subst hk
      simp [dictGet] at h
      simp [h]
    · simp [dictGet, hk] at h
      exact List.mem_cons_of_mem _ (ih h)

/-- dropWhile leaves an append alone when it leaves both halves alone. -/
theorem dropWhile_append_of (p : Char → Bool) (l t : List Char)
    (hl : l.dropWhile p = l) (ht : t.dropWhile p = t) :
    (l ++ t).dropWhile p = l ++ t := by
  cases l with
  | nil => simpa using ht
  | cons c l2 =>
    have hc : ¬(p c = true) := by
      intro hpc
      rw [List.dropWhile_cons, if_pos hpc] at hl
      have hle := List.Sublist.length_le (List.dropWhile_sublist (p := p) (l := l2))
      rw [hl] at hle
      simp at hle
    simp [List.dropWhile_cons, hc]

/-- Strings untouched by dropWhile at both ends are untouched by strip. -/
theorem pyStrip_eq_self (s : PyStr) (h1 : s.dropWhile pyIsSpace = s)
    (h2 : s.reverse.dropWhile pyIsSpace = s.reverse) : pyStrip s = s := by
  unfold pyStrip
  rw [h1, h2, List.reverse_reverse]

/-- A serialized entry line is already fully stripped when its key has no
leading whitespace and its value no trailing whitespace. -/
theorem pyStrip_entry_line (k v : PyStr)
    (hk1 : k.dropWhile pyIsSpace = k) (hv2 : v.reverse.dropWhile pyIsSpace = v.reverse) :
    pyStrip (k ++ '=' :: v) = k ++ '=' :: v := by
  have heq : pyIsSpace '=' = false := rfl
  have hfront : (k ++ '=' :: v).dropWhile pyIsSpace = k ++ '=' :: v := by
    apply dropWhile_append_of _ _ _ hk1
    simp [List.dropWhile_cons, heq]
  have hrev : (k ++ '=' :: v).reverse = v.reverse ++ '=' :: k.reverse := by
    simp [List.reverse_append]
  have hback : (k ++ '=' :: v).reverse.dropWhile pyIsSpace = (k ++ '=' :: v).reverse := by
    rw [hrev]
    apply dropWhile_append_of _ _ _ hv2
    simp [List.dropWhile_cons, heq]
  exact pyStrip_eq_self _ hfront hback

/-- Splitting on the first equals sign of a serialized line recovers key
and value when the key contains no equals sign. -/
theorem splitFirstEq_append (k v : PyStr) (hk : '=' ∉ k) :
    splitFirstEq (k ++ '=' :: v) = some (k, v) := by
  induction k with
  | nil => simp [splitFirstEq]
  | cons c k2 ih =>
    simp only [List.mem_cons] at hk
    push_neg at hk
    have hc : ¬(c = '=') := fun h => hk.1 h.symm
    simp [splitFirstEq, hc, ih hk.2]

/-- splitLines splits off a newline-free first line. -/
theorem splitLines_append (l s : PyStr) (hl : '\n' ∉ l) :
    splitLines (l ++ '\n' :: s) = l :: splitLines s := by
  induction l with
  | nil => simp [splitLines]
  | cons c l2 ih =>
    simp only [List.mem_cons] at hl
    push_neg at hl
    have hc : ¬(c = '\n') := fun h => hl.1 h.symm
    simp [splitLines, hc, ih hl.2]

/-- parseLine on a clean serialized entry line inserts exactly the entry. -/
theorem parseLine_entry (d : Dict) (k v : PyStr)
    (hk1 : k.dropWhile pyIsSpace = k) (hk2 : k.reverse.dropWhile pyIsSpace = k.reverse)
    (hkeq : '=' ∉ k)
    (hv1 : v.dropWhile pyIsSpace = v) (hv2 : v.reverse.dropWhile pyIsSpace = v.reverse) :
    parseLine d (k ++ '=' :: v) = dictInsert d k v := by
  simp [parseLine, pyStrip_entry_line k v hk1 hv2, splitFirstEq_append k v hkeq,
    pyStrip_eq_self k hk1 hk2, pyStrip_eq_self v hv1 hv2]

/-- Parsing the serialization of a snapshot with unique keys and clean
entries, starting from any accumulator disjoint from the snapshot,
appends exactly the snapshot's entries. -/
theorem foldl_parseLine_serialize (d : Dict) :
    ∀ acc : Dict, (d.map Prod.fst).Nodup →
      (∀ kv ∈ d, cleanKey kv.1 ∧ cleanVal kv.2) →
      (∀ kv ∈ d, kv.1 ∉ acc.map Prod.fst) →
      (splitLines (serialize d)).foldl parseLine acc = acc ++ d := by
  induction d with
  | nil =>
    intro acc _ _ _
    simp [serialize, splitLines, parseLine, pyStrip, splitFirstEq]
  | cons hd tl ih =>
    obtain ⟨k, v⟩ := hd
    intro acc hnd hclean hfresh
    obtain ⟨⟨hk1, hk2, hknl, hkeq, _⟩, hv1, hv2, hvnl, _⟩ := hclean (k, v) (by simp)
    simp only [List.map_cons, List.nodup_cons] at hnd
    have hnl : '\n' ∉ k ++ '=' :: v := by
      intro h
      rcases List.mem_append.mp h with h | h
      · exact hknl h
      · rcases List.mem_cons.mp h with h | h
        · simp at h
        · exact hvnl h
    have hser : serialize ((k, v) :: tl) = (k ++ '=' :: v) ++ '\n' :: serialize tl := by
      simp [serialize, serializeEntry, List.append_assoc]
    rw [hser, splitLines_append _ _ hnl, List.foldl_cons,
      parseLine_entry acc k v hk1 hk2 hkeq hv1 hv2,
      dictInsert_of_not_mem acc k v (hfresh (k, v) (by simp)),
      ih (acc ++ [(k, v)]) hnd.2
        (fun kv h => hclean kv (List.mem_cons_of_mem _ h))
        (fun kv h => by
          simp only [List.map_append, List.mem_append, List.map_cons, List.map_nil,
            List.mem_singleton]
          push_neg
          refine ⟨hfresh kv (List.mem_cons_of_mem _ h), ?_⟩
          intro rfl2
          exact hnd.1 (rfl2 ▸ List.mem_map.mpr ⟨kv, h, rfl⟩))]
    simp

/-- The universal-newline translation leaves carriage-return-free text
unchanged. -/
theorem pyReadText_of_no_cr (s : PyStr) (h : '\r' ∉ s) : pyReadText s = s := by
  unfold pyReadText
  induction s with
  | nil => rfl
  | cons c rest ih =>
    simp only [List.mem_cons] at h
    push_neg at h
    have hc : ¬(c = '\r') := fun he => h.1 he.symm
    simp [pyReadTextAux, hc, ih h.2]

/-- Serialization of a snapshot whose keys and values contain no carriage
return contains no carriage return. -/
theorem serialize_no_cr (d : Dict) (h : ∀ kv ∈ d, '\r' ∉ kv.1 ∧ '\r' ∉ kv.2) :
    '\r' ∉ serialize d := by
  induction d with
  | nil => simp [serialize]
  | cons hd tl ih =>
    obtain ⟨k, v⟩ := hd
    have hh1 : '\r' ∉ k := (h (k, v) (by simp)).1
    have hh2 : '\r' ∉ v := (h (k, v) (by simp)).2
    have hih : '\r' ∉ serialize tl := ih (fun kv hkv => h kv (List.mem_cons_of_mem _ hkv))
    intro hmem
    simp only [serialize, serializeEntry, List.append_assoc, List.cons_append,
      List.singleton_append, List.mem_append, List.mem_cons] at hmem
    rcases hmem with hmem | hmem | hmem | hmem
    · exact hh1 hmem
    · simp at hmem
    · exact hh2 hmem
    · rcases hmem with hmem | hmem | hmem
      · simp at hmem
      · simp at hmem
      · exact hih hmem

/-- isPrefixOf holds for a list followed by anything. -/
theorem isPrefixOf_append_self (p t : PyStr) : p.isPrefixOf (p ++ t) = true := by
  induction p with
  | nil => simp [List.isPrefixOf]
  | cons c p2 ih => simp [List.isPrefixOf, ih]

/-- isPrefixOf witnesses a decomposition of the longer list. -/
theorem isPrefixOf_exists (p : PyStr) : ∀ s : PyStr, p.isPrefixOf s = true → ∃ t, s = p ++ t := by
  induction p with
  | nil => exact fun s _ => ⟨s, rfl⟩
  | cons c p2 ih =>
    intro s h
    cases s with
    | nil => simp [List.isPrefixOf] at h
    | cons b s2 =>
      simp only [List.isPrefixOf, Bool.and_eq_true, beq_iff_eq] at h
      obtain ⟨t, ht⟩ := ih s2 h.2
      exact ⟨t, by simp [h.1, ht]⟩

/-- splitFirst at a leading occurrence of a nonempty separator. -/
theorem splitFirst_leading_sep (sep t : PyStr) (hs : sep ≠ []) :
    splitFirst sep (sep ++ t) = some ([], t) := by
  obtain ⟨c, sep2, hsc⟩ := List.exists_cons_of_ne_nil hs
  subst hsc
  simp [splitFirst, isPrefixOf_append_self, List.drop_left]

/-- A successful splitFirst witnesses an occurrence of sep inside s. -/
theorem splitFirst_some_occurs (sep : PyStr) :
    ∀ s p, splitFirst sep s = some p → sep <:+: s := by
  intro s
  induction s with
  | nil => intro p h; simp [splitFirst] at h
  | cons c rest ih =>
    intro p h
    by_cases hpre : sep.isPrefixOf (c :: rest) = true
    · obtain ⟨t, ht⟩ := isPrefixOf_exists sep (c :: rest) hpre
      exact ⟨[], t, by simp [ht.symm]⟩
    · simp only [splitFirst, if_neg hpre] at h
      obtain ⟨q, hq, _⟩ := Option.map_eq_some'.mp h
      obtain ⟨s1, t1, hst⟩ := ih q hq
      exact ⟨c :: s1, t1, by simp [← hst]⟩

/-- splitFirst finds nothing when sep does not occur in s. -/
theorem splitFirst_none_of_no_occurrence (sep s : PyStr) (h : ¬ sep <:+: s) :
    splitFirst sep s = none := by
  cases hc : splitFirst sep s with
  | none => rfl
  | some p => exact absurd (splitFirst_some_occurs sep s p hc) h

/-- pySplitFuel step at a found occurrence. -/
theorem pySplitFuel_succ_some (sep s before after : PyStr) (fuel : Nat)
    (h : splitFirst sep s = some (before, after)) :
    pySplitFuel sep (fuel + 1) s = before :: pySplitFuel sep fuel after := by
  simp [pySplitFuel, h]

/-- pySplitFuel with nonzero fuel on a string without an occurrence. -/
theorem pySplitFuel_none (sep s : PyStr) (m : Nat) (h : splitFirst sep s = none) :
    pySplitFuel sep (m + 1) s = [s] := by
  simp [pySplitFuel, h]

/-- When the nonempty path occurs in the absolute name only as its leading
prefix, the relative key of the fetcher is exactly the name with the path
removed. -/
theorem relKey_prefix_strip (path rel : PyStr) (hp : path ≠ [])
    (h : ¬ path <:+: rel) : relKey path (path ++ rel) = some rel := by
  obtain ⟨m, hm⟩ : ∃ m, (path ++ rel).length = m + 1 := by
    cases path with
    | nil => exact absurd rfl hp
    | cons c p2 => exact ⟨(p2 ++ rel).length, by simp⟩
  have h1 : pySplit path (path ++ rel) = [] :: pySplitFuel path (m + 1) rel := by
    unfold pySplit
    rw [hm]
    exact pySplitFuel_succ_some path (path ++ rel) [] rel (m + 1)
      (splitFirst_leading_sep path rel hp)
  have h2 : pySplitFuel path (m + 1) rel = [rel] :=
    pySplitFuel_none path rel m (splitFirst_none_of_no_occurrence path rel h)
  have h0 : relKey path (path ++ rel) = (pySplit path (path ++ rel))[1]? := rfl
  rw [h0, h1, h2]
  rfl

/-- processEntries over concatenated entry lists processes them in order,
propagating an IndexError from the first part. -/
theorem processEntries_append (path : PyStr) (xs ys : List (PyStr × PyStr)) :
    ∀ acc : Dict, processEntries path (xs ++ ys) acc =
      match processEntries path xs acc with
      | Except.error e => Except.error e
      | Except.ok d => processEntries path ys d := by
  induction xs with
  | nil => intro acc; rfl
  | cons hd tl ih =>
    obtain ⟨n, v⟩ := hd
    intro acc
    cases hrk : relKey path n with
    | none => simp [processEntries, hrk]
    | some k =>
      simp only [List.cons_append, processEntries, hrk]
      exact ih (dictInsert acc k v)

/-- The paged fetch loop accumulates exactly the entries of all pages in
order: it only depends on the concatenation of the pages. -/
theorem fetchLoop_flatten (path : PyStr) (pages : List Page) :
    ∀ acc : Dict, fetchLoop path pages acc = processEntries path pages.flatten acc := by
  induction pages with
  | nil => intro acc; rfl
  | cons pg rest ih =>
    intro acc
    rw [List.flatten_cons, processEntries_append]
    cases h : processEntries path pg acc with
    | error e => simp [fetchLoop, h]
    | ok d => simp [fetchLoop, h, ih d]

/-- Inserting a fresh key grows the mapping by one entry. -/
theorem dictInsert_length_fresh (d : Dict) (k v : PyStr) (h : k ∉ d.map Prod.fst) :
    (dictInsert d k v).length = d.length + 1 := by
  rw [dictInsert_of_not_mem d k v h]
  simp

/-- Inserting a fresh key appends it to the key sequence. -/
theorem dictInsert_keys_fresh (d : Dict) (k v : PyStr) (h : k ∉ d.map Prod.fst) :
    (dictInsert d k v).map Prod.fst = d.map Prod.fst ++ [k] := by
  rw [dictInsert_of_not_mem d k v h]
  simp

/-- Entry processing succeeds and yields one mapping entry per input entry
when every name is the path followed by a path-free remainder, the names
are distinct, and the derived keys avoid the accumulator. -/
theorem processEntries_ok_length (path : PyStr) (hp : path ≠ []) :
    ∀ (entries : List (PyStr × PyStr)) (acc : Dict),
      (∀ nv ∈ entries, ∃ rel, nv.1 = path ++ rel ∧ ¬ path <:+: rel ∧ rel ∉ acc.map Prod.fst) →
      (entries.map Prod.fst).Nodup →
      ∃ d, processEntries path entries acc = Except.ok d ∧
        d.length = acc.length + entries.length := by
  intro entries
  induction entries with
  | nil =>
    intro acc _ _
    exact ⟨acc, rfl, by simp⟩
  | cons hd tl ih =>
    obtain ⟨n, v⟩ := hd
    intro acc hform hnd
    obtain ⟨rel, hn0, hinf, hfresh⟩ := hform (n, v) (by simp)
    replace hn0 : n = path ++ rel := hn0
    subst hn0
    simp only [List.map_cons, List.nodup_cons] at hnd
    have hrk : relKey path (path ++ rel) = some rel := relKey_prefix_strip path rel hp hinf
    have hstep : processEntries path ((path ++ rel, v) :: tl) acc
        = processEntries path tl (dictInsert acc rel v) := by
      simp [processEntries, hrk]
    have hrest : ∀ nv ∈ tl, ∃ rel2, nv.1 = path ++ rel2 ∧ ¬ path <:+: rel2 ∧
        rel2 ∉ (dictInsert acc rel v).map Prod.fst := by
      intro nv hnv
      obtain ⟨rel2, hn2, hinf2, hfresh2⟩ := hform nv (List.mem_cons_of_mem _ hnv)
      refine ⟨rel2, hn2, hinf2, ?_⟩
      rw [dictInsert_keys_fresh acc rel v hfresh]
      simp only [List.mem_append, List.mem_singleton]
      push_neg
      refine ⟨hfresh2, ?_⟩
      intro heq
      subst heq
      exact hnd.1 (List.mem_map.mpr ⟨nv, hnv, hn2⟩)
    obtain ⟨d, hok, hlen⟩ := ih (dictInsert acc rel v) hrest hnd.2
    refine ⟨d, by rw [hstep]; exact hok, ?_⟩
    rw [hlen, dictInsert_length_fresh acc rel v hfresh]
    simp [Nat.add_assoc, Nat.add_comm 1 tl.length]

/-- The fetch result depends only on the concatenation of the pages: any
pagination of the same entries gives the same mapping. -/
theorem fetch_eq_single_page (path : PyStr) (pages : List Page) :
    fetch_parameters_by_path path pages = fetch_parameters_by_path path [pages.flatten] := by
  unfold fetch_parameters_by_path
  rw [fetchLoop_flatten]
  cases h : processEntries path pages.flatten [] with
  | error e => simp [fetchLoop, h]
  | ok d => simp [fetchLoop, h]

/-- Commit-loop step for an unchanged key: skipped entirely. -/
theorem commit_changes_cons_unchanged (path : PyStr) (params : Dict) (fails : PyStr → Bool)
    (k v : PyStr) (tl : List (PyStr × PyStr)) (hk : dictGet params k = some v) :
    commit_changes path params fails ((k, v) :: tl) = commit_changes path params fails tl := by
  simp [commit_changes, hk]

/-- Commit-loop step for a key absent from params: the subscript params at
k raises KeyError and the loop aborts. -/
theorem commit_changes_cons_missing (path : PyStr) (params : Dict) (fails : PyStr → Bool)
    (k v : PyStr) (tl : List (PyStr × PyStr)) (hg : dictGet params k = none) :
    commit_changes path params fails ((k, v) :: tl) = ⟨[], [], some k⟩ := by
  simp [commit_changes, hg]

/-- Commit-loop step for a changed key present in params: a change row and
an attempted write are recorded and the loop continues. -/
theorem commit_changes_cons_changed (path : PyStr) (params : Dict) (fails : PyStr → Bool)
    (k v old : PyStr) (tl : List (PyStr × PyStr))
    (hg : dictGet params k = some old) (hne : old ≠ v) :
    commit_changes path params fails ((k, v) :: tl)
      = ⟨(k, old, v) :: (commit_changes path params fails tl).changes,
         ((path ++ k, v), !fails (path ++ k)) :: (commit_changes path params fails tl).writes,
         (commit_changes path params fails tl).crashed⟩ := by
  simp [commit_changes, hg, hne]

/-- The commit loop does nothing when every edited entry already matches
params. -/
theorem commit_changes_all_unchanged (path : PyStr) (params : Dict) (fails : PyStr → Bool) :
    ∀ edited : List (PyStr × PyStr),
      (∀ kv ∈ edited, dictGet params kv.1 = some kv.2) →
      commit_changes path params fails edited = ⟨[], [], none⟩ := by
  intro edited
  induction edited with
  | nil => intro _; rfl
  | cons hd tl ih =>
    obtain ⟨k, v⟩ := hd
    intro h
    have hk : dictGet params k = some v := h (k, v) (by simp)
    simp [commit_changes, hk, ih (fun kv hkv => h kv (List.mem_cons_of_mem _ hkv))]

/-- Every attempted write of the commit loop comes from an edited entry
whose value differs from the original snapshot's. -/
theorem commit_changes_writes_changed (path : PyStr) (params : Dict) (fails : PyStr → Bool) :
    ∀ edited : List (PyStr × PyStr), ∀ w ∈ (commit_changes path params fails edited).writes,
      ∃ k v, w.1 = (path ++ k, v) ∧ (k, v) ∈ edited ∧ dictGet params k ≠ some v := by
  intro edited
  induction edited with
  | nil => intro w hw; simp [commit_changes] at hw
  | cons hd tl ih =>
    obtain ⟨k, v⟩ := hd
    intro w hw
    by_cases hk : dictGet params k = some v
    · rw [commit_changes_cons_unchanged path params fails k v tl hk] at hw
      obtain ⟨k2, v2, h1, h2, h3⟩ := ih w hw
      exact ⟨k2, v2, h1, List.mem_cons_of_mem _ h2, h3⟩
    · cases hg : dictGet params k with
      | none => rw [commit_changes_cons_missing path params fails k v tl hg] at hw; simp at hw
      | some old =>
        have hne : old ≠ v := fun he => hk (by rw [hg, he])
        rw [commit_changes_cons_changed path params fails k v old tl hg hne] at hw
        rcases List.mem_cons.mp hw with h | h
        · subst h
          exact ⟨k, v, rfl, by simp, hk⟩
        · obtain ⟨k2, v2, h1, h2, h3⟩ := ih w h
          exact ⟨k2, v2, h1, List.mem_cons_of_mem _ h2, h3⟩

/-- Claim C1 (code bug): on the spec's own diff example — original has a
mapped to 1 and b mapped to 2, edited has a mapped to 1, b mapped to 3
and c mapped to 4 — the commit loop records the change for b and writes
it, but then crashes with an uncaught KeyError at the new key c while
building its change row (params subscripted at c), instead of producing
the row with absent old value that the claim describes. -/
theorem C1_spec_example_crashes :
    commit_changes ("/p/".toList)
        [("a".toList, "1".toList), ("b".toList, "2".toList)]
        (fun _ => false)
        [("a".toList, "1".toList), ("b".toList, "3".toList), ("c".toList, "4".toList)]
      = ⟨[("b".toList, "2".toList, "3".toList)],
         [(("/p/b".toList, "3".toList), true)],
         some ("c".toList)⟩ := by decide

/-- Claim C2 counterexample: when the editor launch fails, the temporary
file still exists after the edit session, because the exception
propagates before os.unlink; this contradicts the claimed deletion on
every exit path. -/
theorem C2_counterexample :
    (edit_parameters_in_editor [("a".toList, "1".toList)] false id).tmpFileExists = true := by
  decide

/-- Claim C2 (amended): the temporary file is deleted on the normal exit
path, where the editor invocation succeeds and the session reaches the
reparse and the unlink; only the launch-failure path leaks it. -/
theorem C2_cleanup_on_normal_path (params : Dict) (transform : PyStr → PyStr) :
    (edit_parameters_in_editor params true transform).tmpFileExists = false := rfl

/-- Claim C3 counterexample: a snapshot whose value has leading
whitespace does not survive the serialize-reparse round trip with no
edits, because the reparse strips the value. -/
theorem C3_counterexample :
    (edit_parameters_in_editor [("k".toList, " v".toList)] true id).result
      ≠ Except.ok [("k".toList, " v".toList)] := by decide

/-- Claim C3 (amended): serializing a snapshot and reparsing it with no
intervening edit yields the snapshot back, provided its keys are unique,
keys contain no equals sign, and keys and values contain no newline or
carriage return and no leading or trailing whitespace (in the full
Python sense of whitespace). -/
theorem C3_roundtrip_clean (d : Dict) (hnd : (d.map Prod.fst).Nodup)
    (hclean : ∀ kv ∈ d, cleanKey kv.1 ∧ cleanVal kv.2) :
    (edit_parameters_in_editor d true id).result = Except.ok d := by
  have hid : pyReadText (serialize d) = serialize d :=
    pyReadText_of_no_cr _ (serialize_no_cr d (fun kv hkv =>
      ⟨(hclean kv hkv).1.2.2.2.2, (hclean kv hkv).2.2.2.2⟩))
  have hp : parseDocument (serialize d) = d := by
    have h := foldl_parseLine_serialize d [] hnd hclean (by simp)
    simpa [parseDocument] using h
  simp [edit_parameters_in_editor, hid, hp]

/-- Witness for C3 at a concrete two-entry snapshot. -/
theorem C3_roundtrip_clean_witness :
    (edit_parameters_in_editor [("a".toList, "1".toList), ("b".toList, "2".toList)]
        true id).result
      = Except.ok [("a".toList, "1".toList), ("b".toList, "2".toList)] :=
  C3_roundtrip_clean [("a".toList, "1".toList), ("b".toList, "2".toList)]
    (by decide) (by decide)

/-- Claim C4 counterexample: under path /p/ the absolute key /p/a/p/b is
stored under relative key a, and the path concatenated with a is not the
original absolute key — name.split(path) indexed at 1 is not prefix
removal when the path occurs again inside the name. -/
theorem C4_counterexample :
    relKey ("/p/".toList) ("/p/a/p/b".toList) = some ("a".toList) ∧
    "/p/".toList ++ "a".toList ≠ "/p/a/p/b".toList := by decide

/-- Claim C4 (amended): when the absolute key is the nonempty path
followed by a remainder in which the path does not occur again, the
fetcher stores the entry under exactly that remainder, so the path
concatenated with the stored relative key is the original absolute key. -/
theorem C4_relative_key_single_occurrence (path rel : PyStr) (hp : path ≠ [])
    (h : ¬ path <:+: rel) :
    relKey path (path ++ rel) = some rel :=
  relKey_prefix_strip path rel hp h

/-- Witness for C4 at path /p/ and remainder x. -/
theorem C4_relative_key_single_occurrence_witness :
    relKey ("/p/".toList) ("/p/".toList ++ "x".toList) = some ("x".toList) :=
  C4_relative_key_single_occurrence ("/p/".toList) ("x".toList)
    (by decide) (by decide)

/-- Claim C5: the reparser trims each line, drops lines that are empty or
lack an equals sign, splits the rest on the first equals sign trimming
key and value, and lets later duplicate keys overwrite earlier ones; the
document with a blank line, a line with no equals sign and the line x=y=z
yields exactly the mapping taking x to y=z, and parsing is total. The
reparse reads the file in text mode, so the document first goes through
the universal-newline translation; the trimming uses Python's full
whitespace set, so a line wrapped in file-separator, no-break-space,
em-space and next-line characters still parses to the mapping taking k
to v, and a document whose two lines are separated by a lone carriage
return parses both lines. -/
theorem C5_permissive_parsing :
    parseDocument (pyReadText ("   \nnoequalsign\nx=y=z\n".toList))
      = [("x".toList, "y=z".toList)] ∧
    parseDocument (pyReadText ("  k  = v1 \nother=1\nk=v2\n".toList))
      = [("k".toList, "v2".toList), ("other".toList, "1".toList)] ∧
    parseDocument (pyReadText ("a=1\na=2\n".toList)) = [("a".toList, "2".toList)] ∧
    parseDocument (pyReadText ("\u001ck\u00a0=\u2003v\u0085\n".toList))
      = [("k".toList, "v".toList)] ∧
    parseDocument (pyReadText ("a=b\rc=d\r\n".toList))
      = [("a".toList, "b".toList), ("c".toList, "d".toList)] := by decide

/-- Claim C6: the change rows, the crash behaviour and the sequence of
attempted put_parameter calls of the commit loop are the same as in a
run where no write fails, and each attempted write's outcome records
exactly whether its own call failed — so one write failure never aborts
the remaining batch and never triggers the fatal path. -/
theorem C6_write_failures_independent (path : PyStr) (params : Dict)
    (fails : PyStr → Bool) (edited : List (PyStr × PyStr)) :
    (commit_changes path params fails edited).changes
        = (commit_changes path params (fun _ => false) edited).changes ∧
    (commit_changes path params fails edited).crashed
        = (commit_changes path params (fun _ => false) edited).crashed ∧
    (commit_changes path params fails edited).writes.map Prod.fst
        = (commit_changes path params (fun _ => false) edited).writes.map Prod.fst ∧
    ∀ w ∈ (commit_changes path params fails edited).writes, w.2 = !fails w.1.1 := by
  induction edited with
  | nil => exact ⟨rfl, rfl, rfl, fun w hw => by simp [commit_changes] at hw⟩
  | cons hd tl ih =>
    obtain ⟨k, v⟩ := hd
    obtain ⟨ih1, ih2, ih3, ih4⟩ := ih
    by_cases hk : dictGet params k = some v
    · rw [commit_changes_cons_unchanged path params fails k v tl hk,
        commit_changes_cons_unchanged path params (fun _ => false) k v tl hk]
      exact ⟨ih1, ih2, ih3, ih4⟩
    · cases hg : dictGet params k with
      | none =>
        rw [commit_changes_cons_missing path params fails k v tl hg,
          commit_changes_cons_missing path params (fun _ => false) k v tl hg]
        exact ⟨rfl, rfl, rfl, fun w hw => by simp at hw⟩
      | some old =>
        have hne : old ≠ v := fun he => hk (by rw [hg, he])
        rw [commit_changes_cons_changed path params fails k v old tl hg hne,
          commit_changes_cons_changed path params (fun _ => false) k v old tl hg hne]
        refine ⟨by simp [ih1], by simpa using ih2, by simp [ih3], ?_⟩
        intro w hw
        rcases List.mem_cons.mp hw with h | h
        · subst h; rfl
        · exact ih4 w h

/-- Claim C7: committing an edited snapshot identical to the original
produces no change rows, no writes and no crash; and in general no write
is ever attempted for a key whose edited value equals its original
value. -/
theorem C7_idempotent_commit (path : PyStr) (params : Dict) (fails : PyStr → Bool)
    (hnd : (params.map Prod.fst).Nodup) :
    commit_changes path params fails params = ⟨[], [], none⟩ ∧
    ∀ edited : List (PyStr × PyStr), ∀ w ∈ (commit_changes path params fails edited).writes,
      ∃ k v, w.1 = (path ++ k, v) ∧ dictGet params k ≠ some v := by
  constructor
  · apply commit_changes_all_unchanged
    intro kv hkv
    exact dictGet_of_mem_nodup params kv.1 kv.2 hnd (by rw [Prod.mk.eta]; exact hkv)
  · intro edited w hw
    obtain ⟨k, v, h1, _, h3⟩ := commit_changes_writes_changed path params fails edited w hw
    exact ⟨k, v, h1, h3⟩

/-- Witness for C7 at a concrete one-entry snapshot committed against
itself. -/
theorem C7_idempotent_commit_witness :
    commit_changes ("/p/".toList) [("a".toList, "1".toList)] (fun _ => false)
        [("a".toList, "1".toList)] = ⟨[], [], none⟩ :=
  (C7_idempotent_commit ("/p/".toList) [("a".toList, "1".toList)] (fun _ => false)
    (by decide)).1

/-- Claim C8: a key present in the original snapshot but absent from the
edited snapshot is never visited by the commit loop: no change row names
it, no put_parameter call targets its absolute name, and it is not the
key of a KeyError crash — its stored entry is untouched. -/
theorem C8_deleted_keys_untouched (path : PyStr) (params : Dict) (fails : PyStr → Bool)
    (edited : List (PyStr × PyStr)) (k : PyStr)
    (_hk : k ∈ params.map Prod.fst) (hke : k ∉ edited.map Prod.fst) :
    (∀ c ∈ (commit_changes path params fails edited).changes, c.1 ≠ k) ∧
    (∀ w ∈ (commit_changes path params fails edited).writes, w.1.1 ≠ path ++ k) ∧
    (commit_changes path params fails edited).crashed ≠ some k := by
  clear _hk
  induction edited with
  | nil =>
    exact ⟨fun c hc => by simp [commit_changes] at hc,
      fun w hw => by simp [commit_changes] at hw, by simp [commit_changes]⟩
  | cons hd tl ih =>
    obtain ⟨k1, v1⟩ := hd
    have hke2 : k ≠ k1 ∧ k ∉ tl.map Prod.fst := by
      simp only [List.map_cons, List.mem_cons] at hke
      push_neg at hke
      exact hke
    obtain ⟨ih1, ih2, ih3⟩ := ih hke2.2
    by_cases hkv : dictGet params k1 = some v1
    · rw [commit_changes_cons_unchanged path params fails k1 v1 tl hkv]
      exact ⟨ih1, ih2, ih3⟩
    · cases hg : dictGet params k1 with
      | none =>
        rw [commit_changes_cons_missing path params fails k1 v1 tl hg]
        refine ⟨fun c hc => by simp at hc, fun w hw => by simp at hw, ?_⟩
        intro h
        exact hke2.1 (Option.some.inj h).symm
      | some old =>
        have hne : old ≠ v1 := fun he => hkv (by rw [hg, he])
        rw [commit_changes_cons_changed path params fails k1 v1 old tl hg hne]
        refine ⟨?_, ?_, ih3⟩
        · intro c hc
          rcases List.mem_cons.mp hc with h | h
          · subst h
            exact fun he => hke2.1 he.symm
          · exact ih1 c h
        · intro w hw
          rcases List.mem_cons.mp hw with h | h
          · subst h
            intro he
            exact hke2.1 (List.append_cancel_left he).symm
          · exact ih2 w h

/-- Witness for C8: committing an edited snapshot that dropped key b does
not crash at b. -/
theorem C8_deleted_keys_untouched_witness :
    (commit_changes ("/p/".toList)
        [("a".toList, "1".toList), ("b".toList, "2".toList)]
        (fun _ => false) [("a".toList, "1".toList)]).crashed ≠ some ("b".toList) :=
  (C8_deleted_keys_untouched ("/p/".toList)
    [("a".toList, "1".toList), ("b".toList, "2".toList)]
    (fun _ => false) [("a".toList, "1".toList)] ("b".toList)
    (by decide) (by decide)).2.2

/-- Claim C9 counterexample: under path /p/ the two distinct absolute
keys /p/a/p/b and /p/a/p/c, split across two pages, both collapse to the
relative key a, so two entries yield a mapping with one key, not two. -/
theorem C9_counterexample :
    fetch_parameters_by_path ("/p/".toList)
        [[("/p/a/p/b".toList, "1".toList)], [("/p/a/p/c".toList, "2".toList)]]
      = Except.ok [("a".toList, "2".toList)] ∧
    (List.flatten [[("/p/a/p/b".toList, "1".toList)], [("/p/a/p/c".toList, "2".toList)]]).length
      = 2 ∧
    ([("a".toList, "2".toList)] : Dict).length = 1 := by decide

/-- Claim C9 (amended): the fetch result depends only on the
concatenation of the pages, and when every returned absolute name is the
nonempty path followed by a path-free remainder and the names are
pairwise distinct, the resulting mapping has exactly one key per entry,
however the entries are partitioned into pages. -/
theorem C9_pagination_completeness (path : PyStr) (pages : List Page) (hp : path ≠ [])
    (hform : ∀ nv ∈ pages.flatten, ∃ rel, nv.1 = path ++ rel ∧ ¬ path <:+: rel)
    (hnd : (pages.flatten.map Prod.fst).Nodup) :
    fetch_parameters_by_path path pages = fetch_parameters_by_path path [pages.flatten] ∧
    ∃ d, fetch_parameters_by_path path pages = Except.ok d ∧
      d.length = pages.flatten.length := by
  refine ⟨fetch_eq_single_page path pages, ?_⟩
  obtain ⟨d, hok, hlen⟩ := processEntries_ok_length path hp pages.flatten []
    (fun nv hnv => by
      obtain ⟨rel, h1, h2⟩ := hform nv hnv
      exact ⟨rel, h1, h2, by simp⟩) hnd
  refine ⟨d, ?_, by simpa using hlen⟩
  unfold fetch_parameters_by_path
  rw [fetchLoop_flatten]
  exact hok

/-- Witness for C9: a two-page fetch equals the corresponding single-page
fetch. -/
theorem C9_pagination_completeness_witness :
    fetch_parameters_by_path ("/p/".toList)
        [[("/p/x".toList, "1".toList)], [("/p/y".toList, "2".toList)]]
      = fetch_parameters_by_path ("/p/".toList)
        [List.flatten [[("/p/x".toList, "1".toList)], [("/p/y".toList, "2".toList)]]] :=
  (C9_pagination_completeness ("/p/".toList)
    [[("/p/x".toList, "1".toList)], [("/p/y".toList, "2".toList)]]
    (by decide)
    (by
      intro nv hnv
      simp only [List.flatten_cons, List.flatten_nil, List.append_nil, List.singleton_append,
        List.mem_cons, List.not_mem_nil, or_false] at hnv
      rcases hnv with h | h
      · subst h
        exact ⟨"x".toList, by decide, by decide⟩
      · subst h
        exact ⟨"y".toList, by decide, by decide⟩)
    (by decide)).1

/-- Claim C10: every attempted put_parameter call uses as its Name the
path prefix concatenated with the changed key and as its Value exactly
the edited snapshot's value for that key; in particular every written
name starts with the path prefix. -/
theorem C10_writes_use_prefix_and_edited_value (path : PyStr) (params : Dict)
    (fails : PyStr → Bool) (edited : List (PyStr × PyStr))
    (hnd : (edited.map Prod.fst).Nodup) :
    ∀ w ∈ (commit_changes path params fails edited).writes,
      ∃ k v, w.1 = (path ++ k, v) ∧ dictGet edited k = some v ∧ path <+: w.1.1 := by
  induction edited with
  | nil => intro w hw; simp [commit_changes] at hw
  | cons hd tl ih =>
    obtain ⟨k1, v1⟩ := hd
    simp only [List.map_cons, List.nodup_cons] at hnd
    intro w hw
    by_cases hkv : dictGet params k1 = some v1
    · rw [commit_changes_cons_unchanged path params fails k1 v1 tl hkv] at hw
      obtain ⟨k, v, h1, h2, h3⟩ := ih hnd.2 w hw
      refine ⟨k, v, h1, ?_, h3⟩
      have hmem : (k, v) ∈ tl := dictGet_mem tl k v h2
      have hne : k1 ≠ k := fun he => hnd.1 (he ▸ List.mem_map.mpr ⟨(k, v), hmem, rfl⟩)
      simp [dictGet, hne, h2]
    · cases hg : dictGet params k1 with
      | none =>
        rw [commit_changes_cons_missing path params fails k1 v1 tl hg] at hw
        simp at hw
      | some old =>
        have hne : old ≠ v1 := fun he => hkv (by rw [hg, he])
        rw [commit_changes_cons_changed path params fails k1 v1 old tl hg hne] at hw
        rcases List.mem_cons.mp hw with h | h
        · subst h
          exact ⟨k1, v1, rfl, by simp [dictGet], List.prefix_append path k1⟩
        · obtain ⟨k, v, h1, h2, h3⟩ := ih hnd.2 w h
          refine ⟨k, v, h1, ?_, h3⟩
          have hmem : (k, v) ∈ tl := dictGet_mem tl k v h2
          have hne2 : k1 ≠ k := fun he => hnd.1 (he ▸ List.mem_map.mpr ⟨(k, v), hmem, rfl⟩)
          simp [dictGet, hne2, h2]

/-- Witness for C10 at a one-entry snapshot with one changed key, applied
to the single attempted write of that run. -/
theorem C10_writes_use_prefix_and_edited_value_witness :
    ∃ k v, (("/p/a".toList, "2".toList) : PyStr × PyStr) = ("/p/".toList ++ k, v)
      ∧ dictGet [("a".toList, "2".toList)] k = some v
      ∧ "/p/".toList <+: "/p/a".toList :=
  C10_writes_use_prefix_and_edited_value ("/p/".toList) [("a".toList, "1".toList)]
    (fun _ => false) [("a".toList, "2".toList)] (by decide)
    (("/p/a".toList, "2".toList), true) (by decide)

